import Mathlib

/-!
Verification of the duplicate-function remover (Starbot_TUI/remove_duplicates.py).

The embedding below translates the two core algorithms of the script:

* the boundary scanner inside remove_function: a character-by-character
  brace-depth scan that starts at a declaration line and finds the line on
  which the block closes;
* the batch remover: sort targets by approximate line descending, locate each
  declaration inside a bounded window, splice the located block out of the
  buffer, and record one outcome per target.

Lines are modelled as Lean strings (their characters are scanned via
String.data), the buffer as a list of lines, and the per-target printouts of
the script as an explicit Outcome value.
-/

namespace Starbot

/-- One step of the brace counter of remove_function: a brace character
updates the depth, an opening brace additionally sets the started flag, and
every other character leaves the state unchanged. -/
def braceStep (p : Int × Bool) (c : Char) : Int × Bool :=
  if c = '{' then (p.1 + 1, true)
  else if c = '}' then (p.1 - 1, p.2)
  else p

/-- The inner character loop of remove_function on a single line: on a
closing brace that brings the count to zero after the block opened, the scan
stops successfully (Sum.inl); otherwise the updated depth and flag are handed
to the caller (Sum.inr). -/
def scanLine : List Char → Int → Bool → Sum Unit (Int × Bool)
  | [], d, s => Sum.inr (d, s)
  | c :: cs, d, s =>
    if c = '{' then scanLine cs (d + 1) true
    else if c = '}' then
      if s ∧ d - 1 = 0 then Sum.inl ()
      else scanLine cs (d - 1) s
    else scanLine cs d s

/-- The outer line loop of remove_function, walking the remaining lines while
threading the brace count and the started flag; it returns the index of the
line on which the block closed, or none when the buffer is exhausted. -/
def scanLines : List String → Nat → Int → Bool → Option Nat
  | [], _, _, _ => none
  | l :: ls, i, d, s =>
    match scanLine l.data d s with
    | Sum.inl _ => some i
    | Sum.inr (d', s') => scanLines ls (i + 1) d' s'

/-- Boundary scanner: starting at a 0-based line index, the index of the line
on which the block starting there closes, or none. -/
def findEnd (lines : List String) (start_line : Nat) : Option Nat :=
  scanLines (lines.drop start_line) start_line 0 false

/-- Translation of remove_function: out-of-range start returns the buffer
unchanged; otherwise the boundary scanner runs, and on success the lines from
start_line to the closing line inclusive are spliced out. The second
component reports the 0-based closing line of a successful removal, none when
nothing was removed. -/
def remove_function (lines : List String) (start_line : Nat) :
    List String × Option Nat :=
  if lines.length ≤ start_line then (lines, none)
  else
    match findEnd lines start_line with
    | some j => (lines.take start_line ++ lines.drop (j + 1), some j)
    | none => (lines, none)

/-- A removal target: a function name and a 1-based approximate line hint. -/
structure Target where
  name : String
  approxLine : Int
  deriving DecidableEq, Repr

/-- Per-target outcome, mirroring the three printouts of the script: the
Removing line (with 1-based start line, end line and line count), the
missing-closing-brace warning, and the not-found-near-line warning. -/
inductive Outcome where
  | Removed (name : String) (startLine endLine lineCount : Nat)
  | NotFoundBoundary (name : String)
  | NotFoundLocate (name : String)
  deriving DecidableEq, Repr

/-- Whether the first character list is a prefix of the second. -/
def hasPrefixChars : List Char → List Char → Bool
  | [], _ => true
  | _ :: _, [] => false
  | c :: cs, x :: xs => decide (c = x) && hasPrefixChars cs xs

/-- Whether the first character list occurs contiguously inside the second,
the membership test the script applies to each candidate line. -/
def containsChars (pat : List Char) : List Char → Bool
  | [] => hasPrefixChars pat []
  | c :: xs => hasPrefixChars pat (c :: xs) || containsChars pat xs

/-- The substring the batch loop searches for: the literal characters of
"fn ", the target name, and the opening parenthesis. -/
def declPattern (name : String) : List Char :=
  ("fn " ++ name ++ "(").data

/-- The inner offset loop of the batch remover: try each offset in order,
skip offsets that fall outside the buffer, and return the first 0-based index
whose line contains the declaration substring. -/
def findDeclAux (lines : List String) (name : String) (lineNum : Int) :
    List Int → Option Nat
  | [] => none
  | off :: offs =>
    let check : Int := lineNum - 1 + off
    if check < 0 ∨ (lines.length : Int) ≤ check then
      findDeclAux lines name lineNum offs
    else if containsChars (declPattern name) (lines.getD check.toNat "").data then
      some check.toNat
    else
      findDeclAux lines name lineNum offs

/-- The offsets -5, -4, ..., 9 tried by the batch loop, in order. -/
def offsets : List Int :=
  (List.range 15).map (fun k => (k : Int) - 5)

/-- Window search of the batch remover: the first line, among the offsets
-5..9 of the 0-based hint that land inside the buffer, containing the
declaration substring. -/
def findDecl (lines : List String) (name : String) (lineNum : Int) :
    Option Nat :=
  findDeclAux lines name lineNum offsets

/-- Processing of one target by the batch loop: locate the declaration inside
the window, then delegate to remove_function, and record the corresponding
outcome next to the resulting buffer. -/
def processTarget (lines : List String) (t : Target) : Outcome × List String :=
  match findDecl lines t.name t.approxLine with
  | none => (Outcome.NotFoundLocate t.name, lines)
  | some i =>
    let r := remove_function lines i
    match r.2 with
    | some j => (Outcome.Removed t.name (i + 1) (j + 1) (j - i + 1), r.1)
    | none => (Outcome.NotFoundBoundary t.name, r.1)

/-- The descending comparison the script sorts with: a target comes first
when its approximate line is at least the other's. -/
def targetGE (a b : Target) : Prop :=
  b.approxLine ≤ a.approxLine

instance : DecidableRel targetGE := fun a b =>
  inferInstanceAs (Decidable (b.approxLine ≤ a.approxLine))

instance : IsTotal Target targetGE :=
  ⟨fun a b => Int.le_total b.approxLine a.approxLine⟩

instance : IsTrans Target targetGE :=
  ⟨fun _ _ _ h h' => le_trans h' h⟩

/-- The sort of the batch remover: a stable sort by approximate line
descending, producing the same list as the stable sort of the script. -/
def sortTargets (ts : List Target) : List Target :=
  List.insertionSort targetGE ts

/-- The body of the batch loop over an already sorted target list: each
target is processed on the buffer left by the previous one, and the outcomes
are collected in processing order. -/
def removeAllGo : List String → List Target → List String × List Outcome
  | lines, [] => (lines, [])
  | lines, t :: ts =>
    let p := processTarget lines t
    let rest := removeAllGo p.2 ts
    (rest.1, p.1 :: rest.2)

/-- The batch remover: sort the targets by approximate line descending, then
run the batch loop. -/
def removeAll (lines : List String) (ts : List Target) :
    List String × List Outcome :=
  removeAllGo lines (sortTargets ts)

/-- Line count charged to an outcome: the reported length of a removed range,
zero for the two failure outcomes. -/
def removedCount : Outcome → Nat
  | Outcome.Removed _ _ _ c => c
  | _ => 0

/-- Brace fold over one full line, with no early exit: the state the scanner
is left in after a line on which the block did not close. -/
def lineFold (p : Int × Bool) (l : String) : Int × Bool :=
  l.data.foldl braceStep p

/-- Scanner state (depth, opened) on entry to 0-based line j of a scan that
started at start_line, obtained by folding every character of the lines in
between. -/
def stateAt (lines : List String) (start_line j : Nat) : Int × Bool :=
  ((lines.drop start_line).take (j - start_line)).foldl lineFold (0, false)

/-- Scanner state (depth, opened) after folding every character from
start_line to the end of the buffer: the state at exhaustion. -/
def exhaustState (lines : List String) (start_line : Nat) : Int × Bool :=
  (lines.drop start_line).foldl lineFold (0, false)

/-- Wording of the specification: some character of the list is a closing
brace that brings the depth to zero while the block is opened, the depth and
opened flag at that character being the fold of the characters before it. -/
def closesAtSpec (cs : List Char) (d : Int) (s : Bool) : Prop :=
  ∃ k, k < cs.length ∧ cs.getD k ' ' = '}' ∧
    ((cs.take k).foldl braceStep (d, s)).2 = true ∧
    ((cs.take k).foldl braceStep (d, s)).1 = 1

/-- Line j, scanned from the state it is entered with, contains the closing
brace of the block opened at start_line. -/
def lineCloseAt (lines : List String) (start_line j : Nat) : Prop :=
  closesAtSpec (lines.getD j "").data
    (stateAt lines start_line j).1 (stateAt lines start_line j).2

/-- The window indices of the specification: each offset applied to the
0-based hint, kept when inside the buffer, in ascending order. -/
def windowIdxs (lines : List String) (lineNum : Int) : List Nat :=
  ((offsets.map (fun o => lineNum - 1 + o)).filter
    (fun c => decide (0 ≤ c) && decide (c < (lines.length : Int)))).map Int.toNat

/-- Modelled from the claim wording of the window search: the first window
line whose text contains the bare pattern, the name immediately followed by
the opening parenthesis, with no further context required. -/
def findDeclClaim (lines : List String) (name : String) (lineNum : Int) :
    Option Nat :=
  (windowIdxs lines lineNum).find?
    (fun i => containsChars (name ++ "(").data (lines.getD i "").data)

/-- Specification-style window search with the pattern the code actually
uses, the name preceded by the fn keyword: the first window line containing
that substring. -/
def findDeclAmended (lines : List String) (name : String) (lineNum : Int) :
    Option Nat :=
  (windowIdxs lines lineNum).find?
    (fun i => containsChars (declPattern name) (lines.getD i "").data)

/-- Insertion of a block of lines at a 0-based index of a buffer. -/
def insertAt (xs : List String) (i : Nat) (ys : List String) : List String :=
  xs.take i ++ ys ++ xs.drop i

/-- The 0-based inclusive slice i..j of a buffer (Python lines[i : j+1]). -/
def slice (lines : List String) (i j : Nat) : List String :=
  (lines.drop i).take (j + 1 - i)

/-- Scanner state after the first m lines of a line list, starting from an
arbitrary state p. -/
def foldState (ls : List String) (p : Int × Bool) (m : Nat) : Int × Bool :=
  (ls.take m).foldl lineFold p

/-- Line m of a line list, entered with the state accumulated over the lines
before it, contains the closing brace of the block. -/
def lineCloseFold (ls : List String) (p : Int × Bool) (m : Nat) : Prop :=
  closesAtSpec (ls.getD m "").data (foldState ls p m).1 (foldState ls p m).2

/-- The while loop of remove_function with an explicit iteration budget:
none when the budget runs out with the loop condition still true, otherwise
the loop result (the closing line, or none when the scan fell off the
buffer). -/
def scanLoop (lines : List String) : Nat → Nat → Int → Bool → Option (Option Nat)
  | 0, i, _, _ => if lines.length ≤ i then some none else none
  | fuel + 1, i, d, s =>
    if h : i < lines.length then
      match scanLine (lines.get ⟨i, h⟩).data d s with
      | Sum.inl _ => some (some i)
      | Sum.inr p => scanLoop lines fuel (i + 1) p.1 p.2
    else some none

/-! ### Lemmas about the single-line character scan -/

theorem scanLine_inl_or_foldl (cs : List Char) :
    ∀ p : Int × Bool, scanLine cs p.1 p.2 = Sum.inl () ∨
      scanLine cs p.1 p.2 = Sum.inr (cs.foldl braceStep p) := by
  induction cs with
  | nil => intro p; right; rfl
  | cons c cs ih =>
    intro p
    by_cases h1 : c = '{'
    · simpa [scanLine, braceStep, h1] using ih (p.1 + 1, true)
    · by_cases h2 : c = '}'
      · by_cases h3 : p.2 ∧ p.1 - 1 = 0
        · left
          simp [scanLine, h1, h2, h3]
        · simpa [scanLine, braceStep, h1, h2, h3] using ih (p.1 - 1, p.2)
      · simpa [scanLine, braceStep, h1, h2] using ih p

theorem closesAtSpec_cons (c : Char) (cs : List Char) (d : Int) (s : Bool) :
    closesAtSpec (c :: cs) d s ↔
      (c = '}' ∧ s = true ∧ d = 1) ∨
        closesAtSpec cs (braceStep (d, s) c).1 (braceStep (d, s) c).2 := by
  constructor
  · rintro ⟨k, hk, hc, hs, hd⟩
    cases k with
    | zero =>
      left
      simp only [List.take_zero, List.foldl_nil] at hs hd
      exact ⟨by simpa using hc, hs, hd⟩
    | succ k =>
      right
      refine ⟨k, by simpa using hk, by simpa using hc, ?_, ?_⟩
      · simpa [List.take_succ_cons, List.foldl_cons] using hs
      · simpa [List.take_succ_cons, List.foldl_cons] using hd
  · rintro (⟨hc, hs, hd⟩ | ⟨k, hk, hc, hs, hd⟩)
    · exact ⟨0, by simp, by simpa using hc, by simpa using hs, by simpa using hd⟩
    · refine ⟨k + 1, by simpa using hk, by simpa using hc, ?_, ?_⟩
      · simpa [List.take_succ_cons, List.foldl_cons] using hs
      · simpa [List.take_succ_cons, List.foldl_cons] using hd

theorem scanLine_inl_iff (cs : List Char) :
    ∀ d s, scanLine cs d s = Sum.inl () ↔ closesAtSpec cs d s := by
  induction cs with
  | nil =>
    intro d s
    simp [scanLine, closesAtSpec]
  | cons c cs ih =>
    intro d s
    rw [closesAtSpec_cons]
    by_cases h1 : c = '{'
    · rw [show scanLine (c :: cs) d s = scanLine cs (d + 1) true by
        simp [scanLine, h1]]
      rw [ih (d + 1) true]
      simp [h1, braceStep]
    · by_cases h2 : c = '}'
      · by_cases h3 : s ∧ d - 1 = 0
        · have hyes : c = '}' ∧ s = true ∧ d = 1 := by
            refine ⟨h2, ?_, by omega⟩
            simpa using h3.1
          simp [scanLine, h1, h2, h3, hyes]
        · have hno : ¬(s = true ∧ d = 1) := by
            rintro ⟨hs, hd⟩
            exact h3 ⟨by simp [hs], by omega⟩
          rw [show scanLine (c :: cs) d s = scanLine cs (d - 1) s by
            simp [scanLine, h1, h2, h3]]
          rw [ih (d - 1) s]
          simp [hno, braceStep, h1, h2]
      · rw [show scanLine (c :: cs) d s = scanLine cs d s by
          simp [scanLine, h1, h2]]
        rw [ih d s]
        simp [braceStep, h1, h2]

/-! ### Characterization of the line loop -/

theorem lineCloseFold_cons_zero (l : String) (ls : List String) (p : Int × Bool) :
    lineCloseFold (l :: ls) p 0 ↔ closesAtSpec l.data p.1 p.2 := by
  simp [lineCloseFold, foldState]

theorem lineCloseFold_cons_succ (l : String) (ls : List String) (p : Int × Bool)
    (m : Nat) :
    lineCloseFold (l :: ls) p (m + 1) ↔ lineCloseFold ls (lineFold p l) m := by
  simp [lineCloseFold, foldState, List.take_succ_cons, List.foldl_cons]

theorem scanLines_eq_some_iff (ls : List String) :
    ∀ (i : Nat) (p : Int × Bool) (j : Nat), scanLines ls i p.1 p.2 = some j ↔
      ∃ m, m < ls.length ∧ j = i + m ∧ lineCloseFold ls p m ∧
        ∀ k, k < m → ¬ lineCloseFold ls p k := by
  induction ls with
  | nil => intro i p j; simp [scanLines]
  | cons l ls ih =>
    intro i p j
    rcases scanLine_inl_or_foldl l.data p with h | h
    · have hclose : lineCloseFold (l :: ls) p 0 := by
        rw [lineCloseFold_cons_zero]
        exact (scanLine_inl_iff l.data p.1 p.2).mp h
      have hstep : scanLines (l :: ls) i p.1 p.2 = some i := by
        simp [scanLines, h]
      rw [hstep]
      constructor
      · intro he
        have hij : i = j := Option.some.inj he
        refine ⟨0, by simp, by omega, hclose, fun k hk => absurd hk (by omega)⟩
      · rintro ⟨m, hm, hj, hc, hmin⟩
        cases m with
        | zero => simp [hj]
        | succ k => exact absurd hclose (hmin 0 (Nat.succ_pos k))
    · have hnotclose : ¬ lineCloseFold (l :: ls) p 0 := by
        rw [lineCloseFold_cons_zero]
        intro hc
        rw [← scanLine_inl_iff] at hc
        rw [h] at hc
        exact Sum.noConfusion hc
      have hq : lineFold p l = l.data.foldl braceStep p := rfl
      have hstep : scanLines (l :: ls) i p.1 p.2 =
          scanLines ls (i + 1) (lineFold p l).1 (lineFold p l).2 := by
        simp [scanLines, h, hq]
      rw [hstep, ih (i + 1) (lineFold p l) j]
      constructor
      · rintro ⟨m, hm, hj, hc, hmin⟩
        refine ⟨m + 1, by simpa using hm, by omega, ?_, ?_⟩
        · rw [lineCloseFold_cons_succ]
          exact hc
        · intro k hk
          cases k with
          | zero => exact hnotclose
          | succ k' =>
            rw [lineCloseFold_cons_succ]
            exact hmin k' (by omega)
      · rintro ⟨m, hm, hj, hc, hmin⟩
        cases m with
        | zero => exact absurd hc hnotclose
        | succ k =>
          rw [lineCloseFold_cons_succ] at hc
          refine ⟨k, by simpa using hm, by omega, hc, ?_⟩
          intro k' hk'
          have hk2 := hmin (k' + 1) (by omega)
          rw [lineCloseFold_cons_succ] at hk2
          exact hk2

theorem scanLines_eq_none_iff (ls : List String) :
    ∀ (i : Nat) (p : Int × Bool), scanLines ls i p.1 p.2 = none ↔
      ∀ m, m < ls.length → ¬ lineCloseFold ls p m := by
  induction ls with
  | nil => intro i p; simp [scanLines]
  | cons l ls ih =>
    intro i p
    rcases scanLine_inl_or_foldl l.data p with h | h
    · have hclose : lineCloseFold (l :: ls) p 0 := by
        rw [lineCloseFold_cons_zero]
        exact (scanLine_inl_iff l.data p.1 p.2).mp h
      have hstep : scanLines (l :: ls) i p.1 p.2 = some i := by
        simp [scanLines, h]
      rw [hstep]
      constructor
      · intro he
        exact absurd he (by simp)
      · intro hall
        exact absurd hclose (hall 0 (by simp))
    · have hnotclose : ¬ lineCloseFold (l :: ls) p 0 := by
        rw [lineCloseFold_cons_zero]
        intro hc
        rw [← scanLine_inl_iff] at hc
        rw [h] at hc
        exact Sum.noConfusion hc
      have hq : lineFold p l = l.data.foldl braceStep p := rfl
      have hstep : scanLines (l :: ls) i p.1 p.2 =
          scanLines ls (i + 1) (lineFold p l).1 (lineFold p l).2 := by
        simp [scanLines, h, hq]
      rw [hstep, ih (i + 1) (lineFold p l)]
      constructor
      · intro hall m hm
        cases m with
        | zero => exact hnotclose
        | succ k =>
          rw [lineCloseFold_cons_succ]
          exact hall k (by simpa using hm)
      · intro hall k hk
        have := hall (k + 1) (by simpa using hk)
        rw [lineCloseFold_cons_succ] at this
        exact this

theorem lineCloseAt_eq (lines : List String) (start_line j : Nat)
    (h : start_line ≤ j) :
    lineCloseAt lines start_line j ↔
      lineCloseFold (lines.drop start_line) (0, false) (j - start_line) := by
  have hidx : start_line + (j - start_line) = j := by omega
  unfold lineCloseAt lineCloseFold stateAt foldState
  rw [List.getD_eq_getElem?_getD, List.getD_eq_getElem?_getD,
    List.getElem?_drop, hidx]

theorem findEnd_bounds (lines : List String) (start_line j : Nat)
    (h : findEnd lines start_line = some j) :
    start_line ≤ j ∧ j < lines.length := by
  have h' : scanLines (lines.drop start_line) start_line (0, false).1 (0, false).2 =
      some j := h
  rw [scanLines_eq_some_iff] at h'
  obtain ⟨m, hm, hj, -, -⟩ := h'
  rw [List.length_drop] at hm
  omega

/-- Claim C5, counterexample: on the buffer whose single line is the two
characters closing brace then opening brace, the scanner fails although the
buffer is exhausted with opened true and depth 0, so the stated
characterization (failure iff exhausted with opened false, or opened true and
depth nonzero) is false at this input. -/
theorem scanner_failure_condition_as_stated_false :
    ¬ (findEnd ["\x7d\x7b"] 0 = none ↔
        ((exhaustState ["\x7d\x7b"] 0).2 = false ∨
          ((exhaustState ["\x7d\x7b"] 0).2 = true ∧
            (exhaustState ["\x7d\x7b"] 0).1 ≠ 0))) := by
  decide

/-- Claim C5 as amended: the scanner fails iff no line from the start line on,
entered with the state folded over the lines before it, contains a closing
brace that brings the depth to 0 with the block opened; and it returns
endLine j iff line j is the first such line. Exhaustion with opened false or
with depth nonzero implies failure, but failure also occurs exhausted with
opened true and depth 0 after the depth dipped negative. -/
theorem scanner_failure_condition_amended (lines : List String)
    (start_line : Nat) :
    (findEnd lines start_line = none ↔
      ∀ j, start_line ≤ j → j < lines.length →
        ¬ lineCloseAt lines start_line j) ∧
    (∀ j, findEnd lines start_line = some j ↔
      (start_line ≤ j ∧ j < lines.length ∧ lineCloseAt lines start_line j ∧
        ∀ k, start_line ≤ k → k < j → ¬ lineCloseAt lines start_line k)) := by
  constructor
  · rw [show findEnd lines start_line =
      scanLines (lines.drop start_line) start_line (0, false).1 (0, false).2
      from rfl]
    rw [scanLines_eq_none_iff]
    constructor
    · intro hall j hsj hjl
      rw [lineCloseAt_eq lines start_line j hsj]
      exact hall (j - start_line) (by rw [List.length_drop]; omega)
    · intro hall m hm
      rw [List.length_drop] at hm
      have hj := hall (start_line + m) (by omega) (by omega)
      rw [lineCloseAt_eq lines start_line (start_line + m) (by omega)] at hj
      have hms : start_line + m - start_line = m := by omega
      rw [hms] at hj
      exact hj
  · intro j
    rw [show findEnd lines start_line =
      scanLines (lines.drop start_line) start_line (0, false).1 (0, false).2
      from rfl]
    rw [scanLines_eq_some_iff]
    constructor
    · rintro ⟨m, hm, hj, hc, hmin⟩
      rw [List.length_drop] at hm
      have hsj : start_line ≤ j := by omega
      refine ⟨hsj, by omega, ?_, ?_⟩
      · rw [lineCloseAt_eq lines start_line j hsj]
        have hms : j - start_line = m := by omega
        rw [hms]
        exact hc
      · intro k hsk hkj
        rw [lineCloseAt_eq lines start_line k hsk]
        exact hmin (k - start_line) (by omega)
    · rintro ⟨hsj, hjl, hc, hmin⟩
      refine ⟨j - start_line, by rw [List.length_drop]; omega, by omega, ?_, ?_⟩
      · rw [lineCloseAt_eq lines start_line j hsj] at hc
        exact hc
      · intro k hk
        have h1 := hmin (start_line + k) (by omega) (by omega)
        rw [lineCloseAt_eq lines start_line (start_line + k) (by omega)] at h1
        have hms : start_line + k - start_line = k := by omega
        rw [hms] at h1
        exact h1

/-! ### Helper equations for remove_function and processTarget -/

theorem findDeclAux_lt (lines : List String) (name : String) (lineNum : Int) :
    ∀ (offs : List Int) (i : Nat),
      findDeclAux lines name lineNum offs = some i → i < lines.length := by
  intro offs
  induction offs with
  | nil =>
    intro i h
    exact absurd h (by simp [findDeclAux])
  | cons off offs ih =>
    intro i h
    simp only [findDeclAux] at h
    by_cases hb : (lineNum - 1 + off) < 0 ∨
        (lines.length : Int) ≤ (lineNum - 1 + off)
    · rw [if_pos hb] at h
      exact ih i h
    · rw [if_neg hb] at h
      push_neg at hb
      by_cases hp : containsChars (declPattern name)
          (lines.getD (lineNum - 1 + off).toNat "").data
      · rw [if_pos hp] at h
        have hi := Option.some.inj h
        omega
      · rw [if_neg hp] at h
        exact ih i h

theorem findDecl_lt (lines : List String) (name : String) (lineNum : Int)
    (i : Nat) (h : findDecl lines name lineNum = some i) : i < lines.length :=
  findDeclAux_lt lines name lineNum offsets i h

theorem remove_function_of_some (lines : List String) (start_line j : Nat)
    (h : findEnd lines start_line = some j) :
    remove_function lines start_line =
      (lines.take start_line ++ lines.drop (j + 1), some j) := by
  have hb := findEnd_bounds lines start_line j h
  unfold remove_function
  rw [if_neg (by omega), h]

theorem remove_function_of_none (lines : List String) (start_line : Nat)
    (h : findEnd lines start_line = none) :
    remove_function lines start_line = (lines, none) := by
  unfold remove_function
  by_cases hl : lines.length ≤ start_line
  · rw [if_pos hl]
  · rw [if_neg hl, h]

theorem processTarget_of_locate_none (lines : List String) (t : Target)
    (h : findDecl lines t.name t.approxLine = none) :
    processTarget lines t = (Outcome.NotFoundLocate t.name, lines) := by
  simp [processTarget, h]

theorem processTarget_of_boundary_none (lines : List String) (t : Target)
    (i : Nat) (hi : findDecl lines t.name t.approxLine = some i)
    (he : findEnd lines i = none) :
    processTarget lines t = (Outcome.NotFoundBoundary t.name, lines) := by
  simp [processTarget, hi, remove_function_of_none lines i he]

theorem processTarget_of_removed (lines : List String) (t : Target) (i j : Nat)
    (hi : findDecl lines t.name t.approxLine = some i)
    (he : findEnd lines i = some j) :
    processTarget lines t =
      (Outcome.Removed t.name (i + 1) (j + 1) (j - i + 1),
        lines.take i ++ lines.drop (j + 1)) := by
  simp [processTarget, hi, remove_function_of_some lines i j he]

theorem processTarget_length (lines : List String) (t : Target) :
    (processTarget lines t).2.length +
      removedCount (processTarget lines t).1 = lines.length := by
  cases hfd : findDecl lines t.name t.approxLine with
  | none =>
    rw [processTarget_of_locate_none lines t hfd]
    simp [removedCount]
  | some i =>
    have hi : i < lines.length := findDecl_lt lines t.name t.approxLine i hfd
    cases hfe : findEnd lines i with
    | none =>
      rw [processTarget_of_boundary_none lines t i hfd hfe]
      simp [removedCount]
    | some j =>
      obtain ⟨hij, hjl⟩ := findEnd_bounds lines i j hfe
      rw [processTarget_of_removed lines t i j hfd hfe]
      simp only [removedCount, List.length_append, List.length_take,
        List.length_drop]
      omega

theorem removeAllGo_length : ∀ (ts : List Target) (lines : List String),
    (removeAllGo lines ts).1.length +
      ((removeAllGo lines ts).2.map removedCount).sum = lines.length := by
  intro ts
  induction ts with
  | nil => intro lines; simp [removeAllGo]
  | cons t ts ih =>
    intro lines
    have hpt := processTarget_length lines t
    have hgo := ih (processTarget lines t).2
    simp only [removeAllGo, List.map_cons, List.sum_cons]
    omega

/-- Claim C1 (count invariant): for every initial buffer and every target
list, the length of the final buffer of the batch remover equals the length
of the original buffer minus the sum of the reported line counts over the
Removed outcomes of the run. -/
theorem removeAll_count_invariant (lines : List String) (ts : List Target) :
    (removeAll lines ts).1.length =
      lines.length - ((removeAll lines ts).2.map removedCount).sum := by
  have h := removeAllGo_length (sortTargets ts) lines
  unfold removeAll
  omega

/-- Claim C3 (no mutation on failure): a target whose outcome is
NotFoundLocate or NotFoundBoundary leaves the buffer it was processed on
exactly as it was. -/
theorem no_mutation_on_failure (lines : List String) (t : Target) (n : String)
    (h : (processTarget lines t).1 = Outcome.NotFoundLocate n ∨
      (processTarget lines t).1 = Outcome.NotFoundBoundary n) :
    (processTarget lines t).2 = lines := by
  cases hfd : findDecl lines t.name t.approxLine with
  | none => rw [processTarget_of_locate_none lines t hfd]
  | some i =>
    cases hfe : findEnd lines i with
    | none => rw [processTarget_of_boundary_none lines t i hfd hfe]
    | some j =>
      rw [processTarget_of_removed lines t i j hfd hfe] at h
      rcases h with h | h <;> exact absurd h (by simp)

/-- Witness for claim C3 at the concrete buffer with one line and a target
that is found nowhere: the outcome is NotFoundLocate and the buffer is
returned unchanged. -/
theorem no_mutation_on_failure_witness :
    (processTarget ["x"] ⟨"missing", 1⟩).2 = ["x"] :=
  no_mutation_on_failure ["x"] ⟨"missing", 1⟩ "missing" (Or.inl (by decide))

/-- Claim C9 (out-of-range start is harmless): remove_function called with a
start index at or past the end of the buffer returns the buffer unchanged and
reports no removal. -/
theorem out_of_range_start_harmless (lines : List String) (start_line : Nat)
    (h : lines.length ≤ start_line) :
    remove_function lines start_line = (lines, none) := by
  unfold remove_function
  rw [if_pos h]

/-- Witness for claim C9: a one-line buffer with start index 5. -/
theorem out_of_range_start_harmless_witness :
    remove_function ["a"] 5 = (["a"], none) :=
  out_of_range_start_harmless ["a"] 5 (by decide)

/-- Claim C7 (round trip): when remove_function removes the 0-based line
range start..j, inserting the exact removed slice back at the start index of
the post-removal buffer reproduces the pre-removal buffer. -/
theorem removal_round_trip (lines : List String) (start_line j : Nat)
    (h : (remove_function lines start_line).2 = some j) :
    insertAt (remove_function lines start_line).1 start_line
      (slice lines start_line j) = lines := by
  by_cases hl : lines.length ≤ start_line
  · rw [out_of_range_start_harmless lines start_line hl] at h
    exact absurd h (by simp)
  · have hfe : findEnd lines start_line = some j := by
      unfold remove_function at h
      rw [if_neg hl] at h
      cases hfe' : findEnd lines start_line with
      | none =>
        rw [hfe'] at h
        exact absurd h (by simp)
      | some j' =>
        rw [hfe'] at h
        have hj : j' = j := by simpa using h
        rw [hj]
    obtain ⟨hsj, hjl⟩ := findEnd_bounds lines start_line j hfe
    rw [remove_function_of_some lines start_line j hfe]
    unfold insertAt slice
    have htl : (lines.take start_line).length = start_line := by
      rw [List.length_take]
      omega
    have ht : (lines.take start_line ++ lines.drop (j + 1)).take start_line =
        lines.take start_line := by
      rw [List.take_append_eq_append_take, List.take_take, htl]
      simp
    have hd : (lines.take start_line ++ lines.drop (j + 1)).drop start_line =
        lines.drop (j + 1) := by
      rw [List.drop_append_eq_append_drop, htl]
      rw [List.drop_eq_nil_of_le (le_of_eq htl)]
      simp
    rw [ht, hd]
    have hdd : lines.drop (j + 1) =
        (lines.drop start_line).drop (j + 1 - start_line) := by
      rw [List.drop_drop]
      congr 1
      omega
    rw [hdd, List.append_assoc, List.take_append_drop, List.take_append_drop]

/-- Witness for claim C7: removing the single-line block of a one-line buffer
and re-inserting it restores the buffer. -/
theorem removal_round_trip_witness :
    insertAt (remove_function ["fn f()\x7b\x7d\n"] 0).1 0
      (slice ["fn f()\x7b\x7d\n"] 0 0) = ["fn f()\x7b\x7d\n"] :=
  removal_round_trip ["fn f()\x7b\x7d\n"] 0 0 (by decide)

/-- Claim C8 (single-line block): when the located declaration line itself
contains a closing brace bringing the depth to zero with the block opened,
the scanner reports that very line as the end line and the outcome is a
Removed with line count 1. -/
theorem single_line_block (lines : List String) (t : Target) (i : Nat)
    (h1 : findDecl lines t.name t.approxLine = some i)
    (h2 : closesAtSpec (lines.getD i "").data 0 false) :
    findEnd lines i = some i ∧
      (processTarget lines t).1 = Outcome.Removed t.name (i + 1) (i + 1) 1 := by
  have hi : i < lines.length := findDecl_lt lines t.name t.approxLine i h1
  have hfe : findEnd lines i = some i := by
    unfold findEnd
    rw [List.drop_eq_getElem_cons hi]
    have hgd : lines.getD i "" = lines[i] := by
      rw [List.getD_eq_getElem?_getD, List.getElem?_eq_getElem hi]
      rfl
    have hscan : scanLine (lines[i]).data 0 false = Sum.inl () := by
      rw [scanLine_inl_iff]
      rw [← hgd]
      exact h2
    simp [scanLines, hscan]
  refine ⟨hfe, ?_⟩
  rw [processTarget_of_removed lines t i i h1 hfe]
  simp

/-- Witness for claim C8: the scenario buffer and the keep target, whose
declaration line closes its block on the same line. -/
theorem single_line_block_witness :
    findEnd ["fn foo() \x7b\n", "  bar();\n", "\x7d\n", "fn keep()\x7b\x7d\n"] 3 =
        some 3 ∧
      (processTarget
        ["fn foo() \x7b\n", "  bar();\n", "\x7d\n", "fn keep()\x7b\x7d\n"]
        ⟨"keep", 4⟩).1 = Outcome.Removed "keep" 4 4 1 :=
  single_line_block
    ["fn foo() \x7b\n", "  bar();\n", "\x7d\n", "fn keep()\x7b\x7d\n"]
    ⟨"keep", 4⟩ 3 (by decide)
    ⟨10, by decide, by decide, by decide, by decide⟩

theorem scanLoop_fuel_sufficient (lines : List String) :
    ∀ (fuel i : Nat) (p : Int × Bool), lines.length - i ≤ fuel →
      scanLoop lines fuel i p.1 p.2 =
        some (scanLines (lines.drop i) i p.1 p.2) := by
  intro fuel
  induction fuel with
  | zero =>
    intro i p hf
    have hl : lines.length ≤ i := by omega
    rw [scanLoop, if_pos hl, List.drop_eq_nil_of_le hl]
    rfl
  | succ fuel ih =>
    intro i p hf
    rw [scanLoop]
    by_cases hi : i < lines.length
    · rw [dif_pos hi, List.drop_eq_getElem_cons hi]
      cases hs : scanLine (lines[i]).data p.1 p.2 with
      | inl u => simp [scanLines, hs, List.get_eq_getElem]
      | inr q =>
        have hrec := ih (i + 1) q (by omega)
        simp [scanLines, hs, hrec, List.get_eq_getElem]
    · rw [dif_neg hi, List.drop_eq_nil_of_le (by omega)]
      rfl

/-- Claim C10 (termination): the while loop of remove_function, modelled with
an explicit iteration budget, terminates within length minus start iterations
(each pass moves to the next line), and its result is the boundary scanner's
result; the batch remover itself is a structurally recursive function over
the finite target list, hence total. -/
theorem scan_loop_terminates (lines : List String) (start_line : Nat) :
    scanLoop lines (lines.length - start_line) start_line 0 false =
      some (findEnd lines start_line) :=
  scanLoop_fuel_sufficient lines (lines.length - start_line) start_line
    (0, false) (le_refl _)

/-- Claim C2, counterexample: on the scenario buffer with the keep target the
batch remover does produce the stated final buffer, but the Removed outcome
reports start line 4 and end line 4 (1-based position of the keep line), not
start line 1 and end line 1 as the claim states, so the claim is false at
this input. -/
theorem scenario_b_as_stated_false :
    ¬ (removeAll
        ["fn foo() \x7b\n", "  bar();\n", "\x7d\n", "fn keep()\x7b\x7d\n"]
        [⟨"keep", 4⟩] =
      (["fn foo() \x7b\n", "  bar();\n", "\x7d\n"],
        [Outcome.Removed "keep" 1 1 1])) := by
  decide

/-- Claim C2 as amended: on the scenario buffer with the keep target the
outcome is Removed with start line 4, end line 4 and line count 1 (the
1-based coordinates of the single-line keep block), and the final buffer is
the first three lines. -/
theorem scenario_b_amended :
    removeAll
        ["fn foo() \x7b\n", "  bar();\n", "\x7d\n", "fn keep()\x7b\x7d\n"]
        [⟨"keep", 4⟩] =
      (["fn foo() \x7b\n", "  bar();\n", "\x7d\n"],
        [Outcome.Removed "keep" 4 4 1]) := by
  decide

/-- Claim C4, counterexample: two targets sharing the approximate line 1 are
processed in an order whose approximate lines are not strictly decreasing, so
the strict form of the order invariant is false at this input. -/
theorem order_invariant_as_stated_false :
    ¬ List.Pairwise (fun a b : Target => b.approxLine < a.approxLine)
      (sortTargets [⟨"a", 1⟩, ⟨"b", 1⟩]) := by
  decide

/-- Claim C4 as amended: the processing order of the batch remover (the
sorted target list every run iterates over) is a permutation of the input in
non-increasing approxLine order, and it is strictly decreasing whenever the
approximate lines of the input targets are pairwise distinct. -/
theorem order_invariant_amended (ts : List Target) :
    List.Perm (sortTargets ts) ts ∧
    List.Pairwise (fun a b : Target => b.approxLine ≤ a.approxLine)
      (sortTargets ts) ∧
    ((ts.map Target.approxLine).Nodup →
      List.Pairwise (fun a b : Target => b.approxLine < a.approxLine)
        (sortTargets ts)) := by
  have hperm : List.Perm (sortTargets ts) ts := List.perm_insertionSort _ ts
  have hsorted : List.Pairwise targetGE (sortTargets ts) :=
    List.sorted_insertionSort targetGE ts
  refine ⟨hperm, hsorted, ?_⟩
  intro hnd
  have hnd' : ((sortTargets ts).map Target.approxLine).Nodup :=
    ((hperm.map Target.approxLine).nodup_iff).mpr hnd
  have hne : List.Pairwise
      (fun a b : Target => a.approxLine ≠ b.approxLine) (sortTargets ts) :=
    List.pairwise_map.mp hnd'
  have hand := hsorted.and hne
  exact hand.imp (fun h => lt_of_le_of_ne h.1 (Ne.symm h.2))

/-- Witness for claim C4 as amended, discharging the distinctness hypothesis
at a concrete two-target list with distinct hints. -/
theorem order_invariant_amended_witness :
    List.Pairwise (fun a b : Target => b.approxLine < a.approxLine)
      (sortTargets [⟨"a", 2⟩, ⟨"b", 1⟩]) :=
  (order_invariant_amended [⟨"a", 2⟩, ⟨"b", 1⟩]).2.2 (by decide)

theorem findDeclAux_eq_find? (lines : List String) (name : String)
    (lineNum : Int) :
    ∀ offs : List Int,
      findDeclAux lines name lineNum offs =
        (((offs.map (fun o => lineNum - 1 + o)).filter
            (fun c => decide (0 ≤ c) &&
              decide (c < (lines.length : Int)))).map Int.toNat).find?
          (fun i => containsChars (declPattern name) (lines.getD i "").data) := by
  intro offs
  induction offs with
  | nil => rfl
  | cons off offs ih =>
    simp only [findDeclAux, List.map_cons]
    by_cases h0 : (0 : Int) ≤ lineNum - 1 + off
    · by_cases h1 : lineNum - 1 + off < (lines.length : Int)
      · have hb : ¬(lineNum - 1 + off < 0 ∨
            (lines.length : Int) ≤ lineNum - 1 + off) := by omega
        rw [if_neg hb]
        rw [List.filter_cons_of_pos (by simp [h0, h1]), List.map_cons]
        by_cases hp : containsChars (declPattern name)
            (lines.getD (lineNum - 1 + off).toNat "").data
        · rw [if_pos hp, List.find?_cons_of_pos]
          exact hp
        · rw [if_neg hp, ih, List.find?_cons_of_neg]
          exact hp
      · have hb : lineNum - 1 + off < 0 ∨
            (lines.length : Int) ≤ lineNum - 1 + off := by omega
        rw [if_pos hb]
        rw [List.filter_cons_of_neg (by simp [h1])]
        exact ih
    · have hb : lineNum - 1 + off < 0 ∨
          (lines.length : Int) ≤ lineNum - 1 + off := by omega
      rw [if_pos hb]
      rw [List.filter_cons_of_neg (by simp [h0])]
      exact ih

/-- Claim C6, counterexample: on the one-line buffer whose line reads keep()
without the fn keyword, the window does contain a line with the bare pattern
(the name immediately followed by the opening parenthesis), yet the target's
outcome is NotFoundLocate, so the claim's characterization of the chosen line
and of NotFoundLocate is false at this input. -/
theorem window_search_as_stated_false :
    ¬ (((processTarget ["keep()\n"] ⟨"keep", 1⟩).1 =
          Outcome.NotFoundLocate "keep") ↔
        findDeclClaim ["keep()\n"] "keep" 1 = none) := by
  decide

/-- Claim C6 as amended: the line chosen by the batch remover is the first
line of the clipped ascending window whose text contains the fn keyword, the
name and the opening parenthesis (not the bare name-parenthesis pattern), and
the outcome is NotFoundLocate exactly when no window line contains that
substring. -/
theorem window_search_amended (lines : List String) (t : Target) :
    findDecl lines t.name t.approxLine =
      findDeclAmended lines t.name t.approxLine ∧
    ((processTarget lines t).1 = Outcome.NotFoundLocate t.name ↔
      findDecl lines t.name t.approxLine = none) := by
  constructor
  · exact findDeclAux_eq_find? lines t.name t.approxLine offsets
  · cases hfd : findDecl lines t.name t.approxLine with
    | none =>
      rw [processTarget_of_locate_none lines t hfd]
      simp
    | some i =>
      cases hfe : findEnd lines i with
      | none =>
        rw [processTarget_of_boundary_none lines t i hfd hfe]
        simp
      | some j =>
        rw [processTarget_of_removed lines t i j hfd hfe]
        simp

end Starbot
